import Mathlib

/-!
A verification development for the SceneScout video-metadata tool
(`SceneScout_0.0250324_cli.py`).  The Python functions `process_video`,
`process_videos_in_directory` and `search_metadata` are shallowly embedded:

* a video that opened successfully is a list of decoded frames together with
  the frame rate reported by the decoder (`cv2.VideoCapture.get(CAP_PROP_FPS)`
  returns a float; we model floats by `ℚ`); an unopenable video is `none`;
* the detector (`model(frame)` plus `model.names`) is an opaque collaborator:
  a function from frames to raw detections `[x1, y1, x2, y2, conf, cls]`
  together with a class-index-to-name mapping;
* the filesystem is a directory listing: a list of (file name, content) pairs,
  in enumeration order; writing a JSON metadata file is modelled by pairing the
  derived file name with the record list it serialises (the JSON layer itself
  round-trips records unchanged and is not modelled further);
* Python string operations used by the code (`str.lower`, substring `in`,
  `str.endswith`, `str.replace`, `os.path.splitext`, `int()` truncation) are
  given explicit executable models below.  `str.lower` is modelled on its
  ASCII behaviour (`Char.toLower`), which covers every label the detector can
  produce in the claims considered here.

Caveat recorded once and for all: in Python a `frame_skip` of `0` makes
`frame_count % frame_skip` raise `ZeroDivisionError` as soon as one frame is
read, so no metadata is ever produced in that case; theorems about runs that
enter the loop therefore assume `0 < frame_skip`, matching the spec's
"positive integer" stride.
-/

namespace SceneScout

/-- One raw detection as produced by the detector for a frame:
`[x1, y1, x2, y2, confidence, class]`, all floats in the source
(`results[0].boxes.data.tolist()`). -/
structure RawDetection where
  x1 : ℚ
  y1 : ℚ
  x2 : ℚ
  y2 : ℚ
  conf : ℚ
  cls : ℚ
deriving DecidableEq

/-- The detector collaborator: `model(frame)` returning raw detections, and
`model.names`, the class-index-to-label mapping. -/
structure Model (α : Type) where
  detect : α → List RawDetection
  names : ℤ → String

/-- A successfully opened video: its decoded frames in order and the frame
rate reported by the source (`cap.get(cv2.CAP_PROP_FPS)`). -/
structure Video (α : Type) where
  frames : List α
  reportedFps : ℚ
deriving DecidableEq

/-- A detection record as appended to `video_metadata` in `process_video`. -/
structure Detection where
  timestamp : ℚ
  object : String
  bbox : List ℚ
  confidence : ℚ
deriving DecidableEq

/-- A search result as appended to `results_found` in `search_metadata`. -/
structure SearchResult where
  video : String
  timestamp : ℚ
  object : String
  bbox : List ℚ
  confidence : ℚ
deriving DecidableEq

/-- Python `int()` applied to a float: truncation toward zero.  On `ℚ` this is
T-division of the numerator by the denominator. -/
def pyInt (q : ℚ) : ℤ :=
  Int.tdiv q.num (q.den : ℤ)

/-- Python `str.lower`, on its ASCII behaviour (the only case exercised by
the labels in this development). -/
def lowerStr (s : String) : String :=
  ⟨s.data.map Char.toLower⟩

/-- Whether `pat` starts the list `l` (helper for substring containment). -/
def startsWithSeq {α : Type} [DecidableEq α] : List α → List α → Bool
  | [], _ => true
  | _ :: _, [] => false
  | a :: pat, b :: l => a = b && startsWithSeq pat l

/-- Whether `pat` occurs contiguously inside `l`; Python's `pat in l` on
strings (the empty pattern occurs in everything). -/
def containsSeq {α : Type} [DecidableEq α] (pat : List α) : List α → Bool
  | [] => pat.isEmpty
  | b :: l => startsWithSeq pat (b :: l) || containsSeq pat l

/-- Python `needle in hay` on strings (substring containment). -/
def strContainsSub (hay needle : String) : Bool :=
  containsSeq needle.data hay.data

/-- Python `s.endswith(suffixStr)`. -/
def endsWithStr (s suffixStr : String) : Bool :=
  startsWithSeq suffixStr.data.reverse s.data.reverse

/-- Replace every occurrence of the non-empty pattern `pat` in a list,
scanning left to right, non-overlapping: Python `str.replace` (the source
only ever replaces the non-empty pattern `".json"`). -/
def replaceSeq {α : Type} [DecidableEq α] (pat repl : List α) : List α → List α
  | [] => []
  | b :: l =>
    if !pat.isEmpty && startsWithSeq pat (b :: l) then
      repl ++ replaceSeq pat repl (List.drop (pat.length - 1) l)
    else
      b :: replaceSeq pat repl l
termination_by l => l.length
decreasing_by
  · simp only [List.length_drop, List.length_cons]
    omega
  · simp

/-- Python `s.replace(pat, repl)` for a non-empty `pat`. -/
def pyReplace (s pat repl : String) : String :=
  ⟨replaceSeq pat.data repl.data s.data⟩

/-- Python `os.path.splitext(filename)[0]` for a plain file name (no path
separators, as returned by `os.listdir`): everything before the last dot,
except that a name whose characters before that dot are all dots is not
split. -/
def splitextRoot (s : String) : String :=
  match s.data.reverse.findIdx? (fun c => c = '.') with
  | none => s
  | some j =>
    let i := s.data.length - 1 - j
    if (s.data.take i).all (fun c => c = '.') then s else ⟨s.data.take i⟩

/-- The extension filter of `process_videos_in_directory`:
`filename.lower().endswith((".mp4", ".avi", ".mov", ".mkv"))`. -/
def isVideoFilename (f : String) : Bool :=
  endsWithStr (lowerStr f) ".mp4" || endsWithStr (lowerStr f) ".avi" ||
    endsWithStr (lowerStr f) ".mov" || endsWithStr (lowerStr f) ".mkv"

/-- `fps = cap.get(cv2.CAP_PROP_FPS) or 30`: the reported rate, falling back
to `30` when the source reports `0` (the falsy float). -/
def effectiveFps {α : Type} (v : Video α) : ℚ :=
  if v.reportedFps = 0 then 30 else v.reportedFps

/-- The records appended for one sampled frame at index `idx`: one per raw
detection, with `timestamp = frame_count / fps`, the label resolved through
`model.names[int(cls)]`, the bounding box and the confidence. -/
def frameRecords {α : Type} (m : Model α) (fps : ℚ) (idx : ℕ) (frame : α) :
    List Detection :=
  (m.detect frame).map fun d =>
    { timestamp := (idx : ℚ) / fps
      object := m.names (pyInt d.cls)
      bbox := [d.x1, d.y1, d.x2, d.y2]
      confidence := d.conf }

/-- The `while success:` loop of `process_video`, with `frame_count` made an
explicit argument: frames whose index is a multiple of `frame_skip` are
processed, the rest are read and discarded. -/
def processFrames {α : Type} (m : Model α) (frame_skip : ℕ) (fps : ℚ) :
    List α → ℕ → List Detection
  | [], _ => []
  | f :: rest, frame_count =>
    (if frame_count % frame_skip = 0 then frameRecords m fps frame_count f
     else []) ++ processFrames m frame_skip fps rest (frame_count + 1)

/-- `process_video(video_path, model, frame_skip)`: `none` stands for a
capture that failed to open (`not cap.isOpened()`), which is reported and
answered with the empty metadata list. -/
def process_video {α : Type} (cap : Option (Video α)) (m : Model α)
    (frame_skip : ℕ) : List Detection :=
  match cap with
  | none => []
  | some v => processFrames m frame_skip (effectiveFps v) v.frames 0

/-- The persistence step of `process_videos_in_directory`: the metadata of a
video named `filename` is written to `os.path.splitext(filename)[0] + ".json"`. -/
def writeMetadataFile (filename : String) (metadata : List Detection) :
    String × List Detection :=
  (splitextRoot filename ++ ".json", metadata)

/-- `process_videos_in_directory(video_dir, metadata_dir, model, frame_skip)`:
the video directory is its listing (file name paired with the capture that
opening the file yields); the result is the metadata directory content
produced, one JSON file per recognised video file, in listing order. -/
def process_videos_in_directory {α : Type}
    (videoDir : List (String × Option (Video α))) (m : Model α)
    (frame_skip : ℕ) : List (String × List Detection) :=
  videoDir.filterMap fun e =>
    if isVideoFilename e.1 then
      some (writeMetadataFile e.1 (process_video e.2 m frame_skip))
    else none

/-- The match test of `search_metadata`:
`query.lower() in detection["object"].lower()`. -/
def matchesQuery (query : String) (d : Detection) : Bool :=
  strContainsSub (lowerStr d.object) (lowerStr query)

/-- The result record built for a match found in file `filename`:
`filename.replace(".json", "")` plus the detection's fields. -/
def mkSearchResult (filename : String) (d : Detection) : SearchResult :=
  { video := pyReplace filename ".json" ""
    timestamp := d.timestamp
    object := d.object
    bbox := d.bbox
    confidence := d.confidence }

/-- `search_metadata(query, metadata_dir)`: scan the `.json` files of the
directory listing in order and collect one result per matching record, in
file order then record order. -/
def search_metadata (query : String)
    (metadataDir : List (String × List Detection)) : List SearchResult :=
  metadataDir.flatMap fun e =>
    if endsWithStr e.1 ".json" then
      (e.2.filter (matchesQuery query)).map (mkSearchResult e.1)
    else []

/-- Stripping a trailing `".json"` extension, as the spec words it for the
video-name attribution of search results.  This follows the spec's words, for
comparison with `mkSearchResult`, which embeds the source's
`filename.replace(".json", "")`. -/
def stripJsonExt (s : String) : String :=
  if endsWithStr s ".json" then ⟨s.data.take (s.data.length - 5)⟩ else s

/-! Concrete fixtures used to instantiate the theorems below.  Frames are
modelled by `ℕ` (their content only flows through the opaque detector). -/

/-- A raw detection `[10, 10, 50, 50, 0.91, 0]` as in the spec's example
scenario. -/
def exRawDet : RawDetection :=
  ⟨10, 10, 50, 50, 91 / 100, 0⟩

/-- A detector that reports `exRawDet` on every frame and names every class
"person". -/
def exModel : Model ℕ :=
  ⟨fun _ => [exRawDet], fun _ => "person"⟩

/-- A three-frame video whose source reports 30 fps. -/
def exVideo : Video ℕ :=
  ⟨[0, 1, 2], 30⟩

/-- A stored detection record with label "Car". -/
def exCarDet : Detection :=
  ⟨3, "Car", [10, 10, 50, 50], 91 / 100⟩

/-! Helper lemmas about the loop of `process_video` and about the string
models. -/

theorem containsSeq_nil {α : Type} [DecidableEq α] (l : List α) :
    containsSeq ([] : List α) l = true := by
  cases l with
  | nil => rfl
  | cons b l => simp [containsSeq, startsWithSeq]

theorem matchesQuery_empty (d : Detection) : matchesQuery "" d = true := by
  unfold matchesQuery strContainsSub
  have h : (lowerStr "").data = [] := rfl
  rw [h]
  exact containsSeq_nil _

theorem processFrames_timestamp {α : Type} (m : Model α) (N : ℕ) (fps : ℚ)
    (fs : List α) (c : ℕ) :
    ∀ r ∈ processFrames m N fps fs c, ∃ i : ℕ, r.timestamp = (i : ℚ) / fps := by
  induction fs generalizing c with
  | nil => intro r hr; simp [processFrames] at hr
  | cons f fs ih =>
    intro r hr
    simp only [processFrames, List.mem_append] at hr
    rcases hr with hr | hr
    · by_cases h : c % N = 0
      · rw [if_pos h] at hr
        simp only [frameRecords, List.mem_map] at hr
        obtain ⟨d, -, rfl⟩ := hr
        exact ⟨c, rfl⟩
      · rw [if_neg h] at hr
        simp at hr
    · exact ih (c + 1) r hr

theorem startsWithSeq_append_self {α : Type} [DecidableEq α] (p r : List α) :
    startsWithSeq p (p ++ r) = true := by
  induction p with
  | nil => rfl
  | cons a p ih => simp [startsWithSeq, ih]

theorem endsWithStr_append (s t : String) : endsWithStr (s ++ t) t = true := by
  unfold endsWithStr
  rw [String.data_append, List.reverse_append]
  exact startsWithSeq_append_self _ _

theorem mem_search_metadata (q : String) (dir : List (String × List Detection))
    (r : SearchResult) :
    r ∈ search_metadata q dir ↔
      ∃ e ∈ dir, endsWithStr e.1 ".json" = true ∧
        ∃ d ∈ e.2, matchesQuery q d = true ∧ r = mkSearchResult e.1 d := by
  unfold search_metadata
  rw [List.mem_flatMap]
  constructor
  · rintro ⟨e, he, hr⟩
    by_cases h : endsWithStr e.1 ".json"
    · rw [if_pos h] at hr
      simp only [List.mem_map, List.mem_filter] at hr
      obtain ⟨d, ⟨hd, hm⟩, rfl⟩ := hr
      exact ⟨e, he, h, d, hd, hm, rfl⟩
    · rw [if_neg h] at hr
      simp at hr
  · rintro ⟨e, he, hj, d, hd, hm, rfl⟩
    refine ⟨e, he, ?_⟩
    rw [if_pos hj]
    exact List.mem_map.mpr ⟨d, List.mem_filter.mpr ⟨hd, hm⟩, rfl⟩

/-! Theorems settling the claims. -/

/-- C5: a video that opens successfully but yields zero frames makes
`process_video` return the empty record list (the loop body never runs, so no
error can arise either). -/
theorem process_video_zero_frames {α : Type} (m : Model α) (N : ℕ) (fpsR : ℚ) :
    process_video (some (⟨[], fpsR⟩ : Video α)) m N = [] := rfl

/-- C6: an unopenable video is answered with the empty record list instead of
an exception, and the directory variant still processes all remaining videos
of the batch after it. -/
theorem process_video_unopenable_continues {α : Type} (m : Model α) (N : ℕ)
    (fn : String) (rest : List (String × Option (Video α))) :
    process_video (none : Option (Video α)) m N = [] ∧
    process_videos_in_directory ((fn, none) :: rest) m N =
      (if isVideoFilename fn then [writeMetadataFile fn []] else []) ++
        process_videos_in_directory rest m N := by
  refine ⟨rfl, ?_⟩
  simp only [process_videos_in_directory, List.filterMap_cons]
  by_cases h : isVideoFilename fn
  · simp [h, process_video]
  · simp [h]

/-- C7: the frame rate used for timestamps is the reported one, with fallback
`30` exactly when the source reports `0`; it is therefore never zero, and
every timestamp `process_video` computes is a quotient by this non-zero
rate. -/
theorem effectiveFps_fallback {α : Type} (v : Video α) (m : Model α) (N : ℕ) :
    effectiveFps v ≠ 0 ∧
    (v.reportedFps = 0 → effectiveFps v = 30) ∧
    (v.reportedFps ≠ 0 → effectiveFps v = v.reportedFps) ∧
    ∀ r ∈ process_video (some v) m N,
      ∃ i : ℕ, r.timestamp = (i : ℚ) / effectiveFps v := by
  refine ⟨?_, fun h => by simp [effectiveFps, h], fun h => by simp [effectiveFps, h], ?_⟩
  · unfold effectiveFps
    split
    · norm_num
    · assumption
  · intro r hr
    exact processFrames_timestamp m N (effectiveFps v) v.frames 0 r hr

/-- C7 witness: the fallback and non-zero divisor facts at a source that
reports no frame rate. -/
theorem effectiveFps_fallback_witness :
    effectiveFps (⟨[], 0⟩ : Video ℕ) = 30 ∧ effectiveFps (⟨[], 0⟩ : Video ℕ) ≠ 0 :=
  ⟨(effectiveFps_fallback (⟨[], 0⟩ : Video ℕ) exModel 30).2.1 rfl,
    (effectiveFps_fallback (⟨[], 0⟩ : Video ℕ) exModel 30).1⟩

/-- C9: every recognised video file of the batch gets a metadata JSON file
written for it, an unopenable one included — its file then holds the empty
record array. -/
theorem unopenable_video_writes_empty_file {α : Type}
    (vdir : List (String × Option (Video α))) (m : Model α) (N : ℕ)
    (fn : String) (hmem : (fn, (none : Option (Video α))) ∈ vdir)
    (hvf : isVideoFilename fn = true) :
    (splitextRoot fn ++ ".json", ([] : List Detection)) ∈
      process_videos_in_directory vdir m N := by
  rw [process_videos_in_directory, List.mem_filterMap]
  exact ⟨(fn, none), hmem, by simp [hvf, writeMetadataFile, process_video]⟩

/-- C9 witness: a directory holding one unopenable `.mp4` still yields its
(empty) metadata file. -/
theorem unopenable_video_writes_empty_file_witness :
    (("a.mp4", (none : Option (Video ℕ))) ∈
        ([("a.mp4", none)] : List (String × Option (Video ℕ)))) ∧
    isVideoFilename "a.mp4" = true ∧
    (splitextRoot "a.mp4" ++ ".json", ([] : List Detection)) ∈
      process_videos_in_directory [("a.mp4", (none : Option (Video ℕ)))] exModel 30 :=
  ⟨by simp, by decide,
    unopenable_video_writes_empty_file [("a.mp4", none)] exModel 30 "a.mp4"
      (by simp) (by decide)⟩

/-- C10: the empty query matches every record, so searching with it returns
every record of every `.json` file of the metadata directory. -/
theorem search_metadata_empty_query (dir : List (String × List Detection)) :
    search_metadata "" dir =
      dir.flatMap fun e =>
        if endsWithStr e.1 ".json" then e.2.map (mkSearchResult e.1) else [] := by
  unfold search_metadata
  congr 1
  funext e
  by_cases h : endsWithStr e.1 ".json"
  · rw [if_pos h, if_pos h,
      List.filter_eq_self.mpr fun d _ => matchesQuery_empty d]
  · rw [if_neg h, if_neg h]

/-- C2: a stored record is returned by `search_metadata` exactly when the
query, lowercased, is a substring of the record's lowercased label. -/
theorem search_matches_iff_ci_substring (q : String)
    (dir : List (String × List Detection)) (fn : String) (data : List Detection)
    (hmem : (fn, data) ∈ dir) (hjson : endsWithStr fn ".json" = true)
    (d : Detection) (hd : d ∈ data) :
    (∃ r ∈ search_metadata q dir,
        r.video = pyReplace fn ".json" "" ∧ r.timestamp = d.timestamp ∧
        r.object = d.object ∧ r.bbox = d.bbox ∧ r.confidence = d.confidence) ↔
      strContainsSub (lowerStr d.object) (lowerStr q) = true := by
  constructor
  · rintro ⟨r, hr, -, -, ho, -, -⟩
    rw [mem_search_metadata] at hr
    obtain ⟨e, -, -, d', -, hm, rfl⟩ := hr
    rw [show (mkSearchResult e.1 d').object = d'.object from rfl] at ho
    unfold matchesQuery at hm
    rwa [ho] at hm
  · intro hsub
    refine ⟨mkSearchResult fn d, ?_, rfl, rfl, rfl, rfl, rfl⟩
    rw [mem_search_metadata]
    exact ⟨(fn, data), hmem, hjson, d, hd, hsub, rfl⟩

/-- C2 witness: the record labelled "Car" is found by the queries "car" and
"CAR". -/
theorem search_matches_iff_ci_substring_witness :
    (∃ r ∈ search_metadata "car" [("v.json", [exCarDet])],
        r.video = pyReplace "v.json" ".json" "" ∧ r.timestamp = exCarDet.timestamp ∧
        r.object = exCarDet.object ∧ r.bbox = exCarDet.bbox ∧
        r.confidence = exCarDet.confidence) ∧
    (∃ r ∈ search_metadata "CAR" [("v.json", [exCarDet])],
        r.video = pyReplace "v.json" ".json" "" ∧ r.timestamp = exCarDet.timestamp ∧
        r.object = exCarDet.object ∧ r.bbox = exCarDet.bbox ∧
        r.confidence = exCarDet.confidence) :=
  ⟨(search_matches_iff_ci_substring "car" [("v.json", [exCarDet])] "v.json"
      [exCarDet] (by simp) (by decide) exCarDet (by simp)).mpr (by decide),
   (search_matches_iff_ci_substring "CAR" [("v.json", [exCarDet])] "v.json"
      [exCarDet] (by simp) (by decide) exCarDet (by simp)).mpr (by decide)⟩

/-- C3 counterexample: the source derives the video name with
`filename.replace(".json", "")`, which removes every occurrence of `".json"`,
not only the trailing extension.  The file `"a.json.json"` yields the video
name `"a"`, while stripping only the trailing extension would yield
`"a.json"`. -/
theorem search_video_name_not_strip_trailing :
    endsWithStr "a.json.json" ".json" = true ∧
    stripJsonExt "a.json.json" = "a.json" ∧
    (search_metadata "" [("a.json.json", [exCarDet])]).map SearchResult.video
      = ["a"] ∧
    ("a" : String) ≠ "a.json" := by
  refine ⟨by decide, by decide, ?_, by decide⟩
  simp [search_metadata, mkSearchResult, matchesQuery, strContainsSub, lowerStr,
    containsSeq, startsWithSeq, pyReplace, replaceSeq, endsWithStr, exCarDet]

/-- C3 amended: every search result's video name is the originating `.json`
file's name with every occurrence of `".json"` removed (Python
`str.replace`); this coincides with stripping the trailing extension exactly
for file names in which `".json"` occurs nowhere else. -/
theorem search_video_name_replace_all (q : String)
    (dir : List (String × List Detection)) :
    ∀ r ∈ search_metadata q dir, ∃ e ∈ dir, endsWithStr e.1 ".json" = true ∧
      r.video = pyReplace e.1 ".json" "" := by
  intro r hr
  rw [mem_search_metadata] at hr
  obtain ⟨e, he, hj, d, -, -, rfl⟩ := hr
  exact ⟨e, he, hj, rfl⟩

/-- C3 amended witness: the attribution at a concrete one-file directory. -/
theorem search_video_name_replace_all_witness :
    ∃ e ∈ [("drive1.json", [exCarDet])], endsWithStr e.1 ".json" = true ∧
      (mkSearchResult "drive1.json" exCarDet).video = pyReplace e.1 ".json" "" := by
  have hr : mkSearchResult "drive1.json" exCarDet ∈
      search_metadata "car" [("drive1.json", [exCarDet])] :=
    (mem_search_metadata "car" [("drive1.json", [exCarDet])]
        (mkSearchResult "drive1.json" exCarDet)).mpr
      ⟨("drive1.json", [exCarDet]), by simp, by decide, exCarDet, by simp,
        by decide, rfl⟩
  exact search_video_name_replace_all "car" [("drive1.json", [exCarDet])]
    (mkSearchResult "drive1.json" exCarDet) hr

/-- C4: persisting a record list as a video's metadata file and searching it
back with a query every label matches returns the same records,
field-for-field and in the same order. -/
theorem roundtrip_write_search (vf : String) (rs : List Detection) (q : String)
    (hall : ∀ d ∈ rs, matchesQuery q d = true) :
    (search_metadata q [writeMetadataFile vf rs]).map
        (fun r => Detection.mk r.timestamp r.object r.bbox r.confidence) = rs := by
  unfold search_metadata writeMetadataFile
  simp only [List.flatMap_cons, List.flatMap_nil, List.append_nil]
  rw [if_pos (endsWithStr_append (splitextRoot vf) ".json"),
    List.filter_eq_self.mpr hall, List.map_map]
  exact List.map_id'' (fun d => rfl) rs

/-- C4 witness: the round trip at a one-record file. -/
theorem roundtrip_write_search_witness :
    (∀ d ∈ [exCarDet], matchesQuery "car" d = true) ∧
    (search_metadata "car" [writeMetadataFile "drive1.mp4" [exCarDet]]).map
        (fun r => Detection.mk r.timestamp r.object r.bbox r.confidence)
      = [exCarDet] :=
  ⟨by decide, roundtrip_write_search "drive1.mp4" [exCarDet] "car" (by decide)⟩

theorem processFrames_eq_enumFrom {α : Type} (m : Model α) (N : ℕ) (fps : ℚ)
    (fs : List α) (c : ℕ) :
    processFrames m N fps fs c =
      ((List.enumFrom c fs).filter (fun p => decide (p.1 % N = 0))).flatMap
        (fun p => frameRecords m fps p.1 p.2) := by
  induction fs generalizing c with
  | nil => rfl
  | cons f fs ih =>
    by_cases h : c % N = 0
    · simp [processFrames, List.enumFrom, List.filter_cons, List.flatMap_cons,
        h, ih (c + 1)]
    · simp [processFrames, List.enumFrom, List.filter_cons, h, ih (c + 1)]

theorem ceil_div_step (F N : ℕ) (hN : 0 < N) :
    (F + 1 + N - 1) / N = (F + N - 1) / N + (if F % N = 0 then 1 else 0) := by
  have h0 : F + 1 + N - 1 = F + N := by omega
  rw [h0]
  obtain ⟨k, r, hr, rfl⟩ : ∃ k r, r < N ∧ F = N * k + r :=
    ⟨F / N, F % N, Nat.mod_lt _ hN, by rw [Nat.div_add_mod]⟩
  rw [Nat.mul_add_mod, Nat.mod_eq_of_lt hr]
  by_cases hr0 : r = 0
  · subst hr0
    rw [if_pos rfl]
    have h1 : N * k + 0 + N = N * (k + 1) + 0 := by
      rw [Nat.mul_succ, Nat.add_zero, Nat.add_zero]
    have h2 : N * k + 0 + N - 1 = N * k + (N - 1) := by
      rw [Nat.add_zero, Nat.add_sub_assoc hN]
    rw [h2, h1, Nat.mul_add_div hN, Nat.mul_add_div hN,
      Nat.div_eq_of_lt (show N - 1 < N by omega),
      Nat.div_eq_of_lt (show 0 < N from hN)]
  · have h3 : N * k + r + N = N * (k + 1) + r := by
      rw [Nat.mul_succ]
      exact Nat.add_right_comm _ _ _
    have h4 : ∀ a : ℕ, a + r + N - 1 = a + N + (r - 1) := fun a => by omega
    have h5 : N * k + r + N - 1 = N * (k + 1) + (r - 1) := by
      rw [h4, Nat.mul_succ]
    rw [if_neg hr0, h5, h3, Nat.mul_add_div hN, Nat.mul_add_div hN,
      Nat.div_eq_of_lt hr, Nat.div_eq_of_lt (show r - 1 < N by omega)]

theorem length_filter_range_mod (N : ℕ) (hN : 0 < N) (F : ℕ) :
    ((List.range F).filter (fun i => decide (i % N = 0))).length
      = (F + N - 1) / N := by
  induction F with
  | zero =>
    rw [List.range_zero, List.filter_nil, List.length_nil, Nat.zero_add,
      Nat.div_eq_of_lt (show N - 1 < N by omega)]
  | succ F ih =>
    rw [List.range_succ, List.filter_append, List.length_append, ih,
      ceil_div_step F N hN]
    by_cases h : F % N = 0
    · simp [List.filter_cons, h]
    · simp [List.filter_cons, h]

theorem length_filter_enumFrom_fst {α : Type} (N : ℕ) (fs : List α) :
    ((List.enumFrom 0 fs).filter (fun p => decide (p.1 % N = 0))).length =
      ((List.range fs.length).filter (fun i => decide (i % N = 0))).length := by
  have h1 : List.range fs.length = (List.enumFrom 0 fs).map Prod.fst := by
    rw [List.enumFrom_map_fst, List.range_eq_range']
  rw [h1, List.filter_map, List.length_map]
  rfl

/-- C1: for a video of `F` frames processed with a positive stride `N`,
`process_video` produces exactly the detections of the frames whose 0-based
index is a multiple of `N`; the number of sampled frames is
`⌈F / N⌉ = (F + N - 1) / N`; and every record carries
`timestamp = frame_index / frame_rate` for its frame's index. -/
theorem process_video_sampling {α : Type} (v : Video α) (m : Model α) (N : ℕ)
    (hN : 0 < N) :
    process_video (some v) m N =
      ((List.enumFrom 0 v.frames).filter (fun p => decide (p.1 % N = 0))).flatMap
        (fun p => frameRecords m (effectiveFps v) p.1 p.2) ∧
    ((List.enumFrom 0 v.frames).filter (fun p => decide (p.1 % N = 0))).length =
      (v.frames.length + N - 1) / N ∧
    ∀ r ∈ process_video (some v) m N,
      ∃ i : ℕ, i < v.frames.length ∧ i % N = 0 ∧
        r.timestamp = (i : ℚ) / effectiveFps v := by
  refine ⟨processFrames_eq_enumFrom m N (effectiveFps v) v.frames 0,
    by rw [length_filter_enumFrom_fst, length_filter_range_mod N hN], ?_⟩
  intro r hr
  rw [show process_video (some v) m N
      = processFrames m N (effectiveFps v) v.frames 0 from rfl,
    processFrames_eq_enumFrom, List.mem_flatMap] at hr
  obtain ⟨p, hp, hr⟩ := hr
  rw [List.mem_filter] at hp
  obtain ⟨hpm, hpd⟩ := hp
  obtain ⟨i, f⟩ := p
  have hb := List.mem_enumFrom hpm
  simp only [frameRecords, List.mem_map] at hr
  obtain ⟨d, -, rfl⟩ := hr
  exact ⟨i, by omega, of_decide_eq_true hpd, rfl⟩

/-- C1 witness: a three-frame video sampled with stride 2. -/
theorem process_video_sampling_witness :
    (0 < 2) ∧
    (process_video (some exVideo) exModel 2 =
      ((List.enumFrom 0 exVideo.frames).filter
          (fun p => decide (p.1 % 2 = 0))).flatMap
        (fun p => frameRecords exModel (effectiveFps exVideo) p.1 p.2) ∧
    ((List.enumFrom 0 exVideo.frames).filter
        (fun p => decide (p.1 % 2 = 0))).length =
      (exVideo.frames.length + 2 - 1) / 2 ∧
    ∀ r ∈ process_video (some exVideo) exModel 2,
      ∃ i : ℕ, i < exVideo.frames.length ∧ i % 2 = 0 ∧
        r.timestamp = (i : ℚ) / effectiveFps exVideo) :=
  ⟨by norm_num, process_video_sampling exVideo exModel 2 (by norm_num)⟩

theorem processFrames_timestamp_lb {α : Type} (m : Model α) (N : ℕ) (fps : ℚ)
    (hfps : 0 < fps) (fs : List α) (c : ℕ) :
    ∀ r ∈ processFrames m N fps fs c, (c : ℚ) / fps ≤ r.timestamp := by
  induction fs generalizing c with
  | nil => simp [processFrames]
  | cons f fs ih =>
    intro r hr
    simp only [processFrames, List.mem_append] at hr
    rcases hr with hr | hr
    · by_cases h : c % N = 0
      · rw [if_pos h] at hr
        simp only [frameRecords, List.mem_map] at hr
        obtain ⟨d, -, rfl⟩ := hr
        exact le_refl _
      · rw [if_neg h] at hr
        simp at hr
    · refine le_trans ?_ (ih (c + 1) r hr)
      apply (div_le_div_iff_of_pos_right hfps).mpr
      push_cast
      linarith

theorem pairwise_le_of_const (l : List ℚ) (x : ℚ) (h : ∀ y ∈ l, y = x) :
    l.Pairwise (fun a b => a ≤ b) := by
  induction l with
  | nil => exact List.Pairwise.nil
  | cons a l ih =>
    rw [List.pairwise_cons]
    refine ⟨fun b hb => ?_, ih fun y hy => h y (List.mem_cons_of_mem a hy)⟩
    rw [h a (List.mem_cons_self a l), h b (List.mem_cons_of_mem a hb)]

theorem processFrames_timestamps_sorted {α : Type} (m : Model α) (N : ℕ)
    (fps : ℚ) (hfps : 0 < fps) (fs : List α) (c : ℕ) :
    ((processFrames m N fps fs c).map Detection.timestamp).Pairwise
      (fun a b => a ≤ b) := by
  induction fs generalizing c with
  | nil => simp [processFrames]
  | cons f fs ih =>
    simp only [processFrames, List.map_append]
    rw [List.pairwise_append]
    refine ⟨?_, ih (c + 1), ?_⟩
    · apply pairwise_le_of_const _ ((c : ℚ) / fps)
      intro y hy
      by_cases h : c % N = 0
      · rw [if_pos h] at hy
        simp only [frameRecords, List.map_map, List.mem_map] at hy
        obtain ⟨d, -, rfl⟩ := hy
        rfl
      · rw [if_neg h] at hy
        simp at hy
    · intro a ha b hb
      have hb' : ((c + 1 : ℕ) : ℚ) / fps ≤ b := by
        rw [List.mem_map] at hb
        obtain ⟨r, hr, rfl⟩ := hb
        exact processFrames_timestamp_lb m N fps hfps fs (c + 1) r hr
      have ha' : a = (c : ℚ) / fps := by
        by_cases h : c % N = 0
        · rw [if_pos h] at ha
          simp only [frameRecords, List.map_map, List.mem_map] at ha
          obtain ⟨d, -, rfl⟩ := ha
          rfl
        · rw [if_neg h] at ha
          simp at ha
      rw [ha']
      refine le_trans ?_ hb'
      apply (div_le_div_iff_of_pos_right hfps).mpr
      push_cast
      linarith

/-- C8: every metadata file persisted by the directory pipeline (run with a
positive stride, on sources reporting a non-negative frame rate) lists its
records in frame order, so the timestamps are non-decreasing. -/
theorem metadata_file_timestamps_sorted {α : Type}
    (vdir : List (String × Option (Video α))) (m : Model α) (N : ℕ)
    (_hN : 0 < N)
    (hfps : ∀ e ∈ vdir, ∀ v, e.2 = some v → 0 ≤ v.reportedFps) :
    ∀ f ∈ process_videos_in_directory vdir m N,
      (f.2.map Detection.timestamp).Pairwise (fun a b => a ≤ b) := by
  intro f hf
  rw [process_videos_in_directory, List.mem_filterMap] at hf
  obtain ⟨e, he, hfe⟩ := hf
  by_cases hv : isVideoFilename e.1
  · rw [if_pos hv, Option.some.injEq] at hfe
    subst hfe
    match he2 : e.2 with
    | none => simp [writeMetadataFile, process_video, he2]
    | some v =>
      have h0 : 0 ≤ v.reportedFps := hfps e he v he2
      have hpos : 0 < effectiveFps v := by
        unfold effectiveFps
        split
        · norm_num
        · exact lt_of_le_of_ne h0 (Ne.symm (by assumption))
      simpa [writeMetadataFile, process_video, he2] using
        processFrames_timestamps_sorted m N (effectiveFps v) hpos v.frames 0
  · rw [if_neg hv] at hfe
    exact absurd hfe (by simp)

/-- C8 witness: the metadata file of a 30 fps three-frame video processed
with the default stride 30. -/
theorem metadata_file_timestamps_sorted_witness :
    ((writeMetadataFile "a.mp4"
        (process_video (some exVideo) exModel 30)).2.map
      Detection.timestamp).Pairwise (fun a b => a ≤ b) :=
  metadata_file_timestamps_sorted [("a.mp4", some exVideo)] exModel 30
    (by norm_num)
    (by
      rintro e he v hv
      simp only [List.mem_singleton] at he
      subst he
      simp only [Option.some.injEq] at hv
      rw [← hv]
      norm_num [exVideo])
    (writeMetadataFile "a.mp4" (process_video (some exVideo) exModel 30))
    (by
      have hv : isVideoFilename "a.mp4" = true := by decide
      simp [process_videos_in_directory, hv])

end SceneScout
